import Mathlib

/-!
Verification of the priority-queue batched inference scheduler
(`inference_scheduler.cpp`).

The C++ program consists of a `struct InferenceRequest`, a class
`InferenceScheduler` holding a `std::priority_queue<InferenceRequest>`
guarded by a mutex, a pool of worker threads each running `worker_loop`,
and a statistics report `print_stats`.  Below, each C++ entity is
embedded as a pure Lean definition:

* `InferenceRequest` with its fields (`double` times become `ℚ`);
* the priority queue as a `List InferenceRequest` viewed as a multiset,
  with `popMax` modelling `queue_.top()`/`queue_.pop()` (a maximal-priority
  element is removed; the C++ heap's tie-break among equal priorities is
  unspecified, so `popMax` fixes one deterministic tie-break, and all
  theorems below state only priority-level facts that hold for any
  tie-break);
* the batch-pulling loop of `worker_loop` as `drainBatch`;
* a whole run (submit everything, then drain to completion under
  shutdown) as `runToCompletion`;
* the cost computation `total_tokens * 0.02` as `simMs`;
* the percentile lambda of `print_stats` as `pct`, and the throughput
  expression as `throughput`;
* the lexical extent of the two lock scopes in `worker_loop` as an event
  trace `workerCycle`.
-/

namespace InferenceSchedulerModel

/-- The C++ `struct InferenceRequest`: id, priority (higher = more urgent),
token_count (simulated input tokens), enqueue_time_ms (monotonic time at
enqueue, a C++ `double` modelled as `ℚ`). -/
structure InferenceRequest where
  id : Int
  priority : Int
  token_count : Int
  enqueue_time_ms : ℚ
deriving DecidableEq, Repr

/-- The comparison `InferenceRequest::operator<`: comparison used by the max-heap,
keyed solely on `priority`. -/
def requestLt (a o : InferenceRequest) : Bool :=
  decide (a.priority < o.priority)

/-- The pair `queue_.top()` / `queue_.pop()`: removes one
maximal-priority element from the multiset of pending requests and
returns it with the remaining elements.  Ties among equal priorities are
broken deterministically (front of the list wins), standing in for the
C++ heap's unspecified tie-break. -/
def popMax : List InferenceRequest → Option (InferenceRequest × List InferenceRequest)
  | [] => none
  | r :: rs =>
    match popMax rs with
    | none => some (r, [])
    | some (m, rest) => if requestLt r m then some (m, r :: rest) else some (r, rs)

/-- The batch-pulling loop of `worker_loop` (lines 129-132):
`while (!queue_.empty() && (int)batch.size() < batch_size_) {
batch.push_back(queue_.top()); queue_.pop(); }`.  Returns the batch and
the queue that remains. -/
def drainBatch : Nat → List InferenceRequest → List InferenceRequest × List InferenceRequest
  | 0, q => ([], q)
  | n + 1, q =>
    match popMax q with
    | none => ([], q)
    | some (r, rest) =>
      let p := drainBatch n rest
      (r :: p.1, p.2)

theorem popMax_nil : popMax [] = none := rfl

theorem popMax_eq_none_iff (q : List InferenceRequest) : popMax q = none ↔ q = [] := by
  cases q with
  | nil => simp [popMax]
  | cons r rs =>
    simp only [popMax]
    cases h : popMax rs with
    | none => simp
    | some p =>
      cases p with
      | mk m rest => by_cases hlt : requestLt r m <;> simp [hlt]

theorem popMax_perm (q : List InferenceRequest) (r : InferenceRequest)
    (rest : List InferenceRequest) (h : popMax q = some (r, rest)) :
    (r :: rest).Perm q := by
  induction q generalizing r rest with
  | nil => simp [popMax] at h
  | cons a as ih =>
    simp only [popMax] at h
    cases hp : popMax as with
    | none =>
      rw [hp] at h
      have hnil : as = [] := (popMax_eq_none_iff as).mp hp
      subst hnil
      simp only [Option.some.injEq, Prod.mk.injEq] at h
      obtain ⟨rfl, rfl⟩ := h
      exact List.Perm.refl _
    | some p =>
      cases p with
      | mk m rest₀ =>
        rw [hp] at h
        by_cases hlt : requestLt a m
        · simp only [hlt, if_true, Option.some.injEq, Prod.mk.injEq] at h
          obtain ⟨rfl, rfl⟩ := h
          have hperm : (m :: rest₀).Perm as := ih m rest₀ hp
          exact (List.Perm.swap a m rest₀).trans (hperm.cons a)
        · simp only [hlt, if_false, Option.some.injEq, Prod.mk.injEq] at h
          obtain ⟨rfl, rfl⟩ := h
          exact List.Perm.refl _

theorem popMax_max (q : List InferenceRequest) (r : InferenceRequest)
    (rest : List InferenceRequest) (h : popMax q = some (r, rest)) :
    ∀ x ∈ rest, x.priority ≤ r.priority := by
  induction q generalizing r rest with
  | nil => simp [popMax] at h
  | cons a as ih =>
    simp only [popMax] at h
    cases hp : popMax as with
    | none =>
      rw [hp] at h
      simp only [Option.some.injEq, Prod.mk.injEq] at h
      obtain ⟨rfl, rfl⟩ := h
      intro x hx
      simp at hx
    | some p =>
      cases p with
      | mk m rest₀ =>
        rw [hp] at h
        have hmax : ∀ x ∈ rest₀, x.priority ≤ m.priority := ih m rest₀ hp
        by_cases hlt : requestLt a m
        · simp only [hlt, if_true, Option.some.injEq, Prod.mk.injEq] at h
          obtain ⟨rfl, rfl⟩ := h
          have halt : a.priority < m.priority := by
            simpa [requestLt] using hlt
          intro x hx
          rcases List.mem_cons.mp hx with hxa | hxr
          · subst hxa; exact le_of_lt halt
          · exact hmax x hxr
        · simp only [hlt, if_false, Option.some.injEq, Prod.mk.injEq] at h
          obtain ⟨rfl, rfl⟩ := h
          have hge : m.priority ≤ a.priority := by
            simpa [requestLt] using hlt
          intro x hx
          have hx' : x ∈ m :: rest₀ := ((popMax_perm as m rest₀ hp).mem_iff).mpr hx
          rcases List.mem_cons.mp hx' with hxm | hxr
          · subst hxm; exact hge
          · exact le_trans (hmax x hxr) hge

theorem drainBatch_perm (n : Nat) (q : List InferenceRequest) :
    ((drainBatch n q).1 ++ (drainBatch n q).2).Perm q := by
  induction n generalizing q with
  | zero => simp [drainBatch]
  | succ n ih =>
    simp only [drainBatch]
    cases hp : popMax q with
    | none => simp
    | some p =>
      cases p with
      | mk r rest =>
        simp only [List.cons_append]
        exact ((ih rest).cons r).trans (popMax_perm q r rest hp)

theorem drainBatch_length_le (n : Nat) (q : List InferenceRequest) :
    (drainBatch n q).1.length ≤ n := by
  induction n generalizing q with
  | zero => simp [drainBatch]
  | succ n ih =>
    simp only [drainBatch]
    cases hp : popMax q with
    | none => simp
    | some p =>
      cases p with
      | mk r rest =>
        simpa using Nat.succ_le_succ (ih rest)

theorem drainBatch_mem_batch (n : Nat) (q : List InferenceRequest) :
    ∀ y ∈ (drainBatch n q).1, y ∈ q := by
  intro y hy
  exact ((drainBatch_perm n q).mem_iff).mp (List.mem_append.mpr (Or.inl hy))

theorem drainBatch_rest_le (n : Nat) (q : List InferenceRequest) :
    ∀ x ∈ (drainBatch n q).2, ∀ y ∈ (drainBatch n q).1, x.priority ≤ y.priority := by
  induction n generalizing q with
  | zero => simp [drainBatch]
  | succ n ih =>
    simp only [drainBatch]
    cases hp : popMax q with
    | none => simp
    | some p =>
      cases p with
      | mk r rest =>
        intro x hx y hy
        simp only at hx hy
        rcases List.mem_cons.mp hy with hyr | hyb
        · subst hyr
          have hxrest : x ∈ rest :=
            ((drainBatch_perm n rest).mem_iff).mp (List.mem_append.mpr (Or.inr hx))
          exact popMax_max q y rest hp x hxrest
        · exact ih rest x hx y hyb

theorem drainBatch_batch_pairwise (n : Nat) (q : List InferenceRequest) :
    (drainBatch n q).1.Pairwise (fun a b => b.priority ≤ a.priority) := by
  induction n generalizing q with
  | zero => simp [drainBatch]
  | succ n ih =>
    simp only [drainBatch]
    cases hp : popMax q with
    | none => simp
    | some p =>
      cases p with
      | mk r rest =>
        simp only
        refine List.Pairwise.cons ?_ (ih rest)
        intro y hy
        exact popMax_max q r rest hp y (drainBatch_mem_batch n rest y hy)

/-- C1: any batch removed by a worker's drain step takes the pending
requests in non-increasing priority order: the batch is sorted
non-increasingly by priority, every request left pending has priority no
greater than every request taken (so a strictly higher-priority pending
request is never left behind in favor of a lower-priority one, up to the
batch-size bound), and nothing is created or lost: batch and remainder
together are a permutation of the pending multiset.  All facts are at the
level of the priority field alone. -/
theorem drain_step_priority_order (n : Nat) (q batch rest : List InferenceRequest)
    (h : drainBatch n q = (batch, rest)) :
    batch.Pairwise (fun a b => b.priority ≤ a.priority) ∧
      (∀ x ∈ rest, ∀ y ∈ batch, x.priority ≤ y.priority) ∧
      (batch ++ rest).Perm q := by
  have h1 : (drainBatch n q).1 = batch := by rw [h]
  have h2 : (drainBatch n q).2 = rest := by rw [h]
  refine ⟨?_, ?_, ?_⟩
  · rw [← h1]; exact drainBatch_batch_pairwise n q
  · rw [← h1, ← h2]; exact drainBatch_rest_le n q
  · rw [← h1, ← h2]; exact drainBatch_perm n q

/-- C1 witness: a concrete drain of two items from a three-element queue
with priorities 1, 5, 3 takes priorities 5 then 3 and leaves priority 1. -/
theorem drain_step_priority_order_witness :
    (drainBatch 2 [⟨0, 1, 10, 0⟩, ⟨1, 5, 10, 0⟩, ⟨2, 3, 10, 0⟩]
      = ([⟨1, 5, 10, 0⟩, ⟨2, 3, 10, 0⟩], [⟨0, 1, 10, 0⟩])) ∧
    ([(⟨1, 5, 10, 0⟩ : InferenceRequest), ⟨2, 3, 10, 0⟩].Pairwise
      (fun a b => b.priority ≤ a.priority)) := by
  refine ⟨by decide, ?_⟩
  exact (drain_step_priority_order 2 [⟨0, 1, 10, 0⟩, ⟨1, 5, 10, 0⟩, ⟨2, 3, 10, 0⟩]
    [⟨1, 5, 10, 0⟩, ⟨2, 3, 10, 0⟩] [⟨0, 1, 10, 0⟩] (by decide)).1

/-- C4: no batch produced by a single drain step ever contains more than
the configured maximum batch size of requests (`(int)batch.size() <
batch_size_` bounds the pull loop). -/
theorem drain_step_batch_bound (max_items : Nat) (q : List InferenceRequest) :
    (drainBatch max_items q).1.length ≤ max_items :=
  drainBatch_length_le max_items q

/-- The shutdown-drain phase of `worker_loop`: once `shutdown_` is set,
workers keep pulling batches (`drainBatch`) until the queue is empty and
only then break (`if (shutdown_ && queue_.empty()) break;`).  The fuel
argument bounds the number of cycles; `q.length` cycles always suffice
when the batch size is positive. -/
def drainAllFuel : Nat → Nat → List InferenceRequest → List (List InferenceRequest)
  | 0, _, _ => []
  | fuel + 1, bsz, q =>
    if q.isEmpty then []
    else
      (drainBatch bsz q).1 :: drainAllFuel fuel bsz (drainBatch bsz q).2

/-- A whole run, serialized: all submissions are already in the queue and
the workers then drain it to completion under shutdown, producing the
sequence of processed batches. -/
def runToCompletion (bsz : Nat) (q : List InferenceRequest) : List (List InferenceRequest) :=
  drainAllFuel q.length bsz q

/-- Latency recording (lines 146-151): for every request of a batch, the
sample `done_time - r.enqueue_time_ms` is appended. -/
def recordLatencies (done_time : ℚ) (batch : List InferenceRequest) : List ℚ :=
  batch.map (fun r => done_time - r.enqueue_time_ms)

/-- All latency samples of a run, one list per processed batch (each
batch's completion time is arbitrary, given by `doneTime`), flattened in
the order recorded. -/
def runSamples (doneTime : List InferenceRequest → ℚ)
    (batches : List (List InferenceRequest)) : List ℚ :=
  (batches.map (fun b => recordLatencies (doneTime b) b)).flatten

/-- The final value of `total_processed_`: each cycle adds
`batch.size()`. -/
def totalProcessed (batches : List (List InferenceRequest)) : Nat :=
  (batches.map List.length).sum

theorem drainBatch_rest_length_lt (bsz : Nat) (q : List InferenceRequest)
    (hb : 0 < bsz) (hq : q ≠ []) : (drainBatch bsz q).2.length < q.length := by
  cases bsz with
  | zero => omega
  | succ n =>
    cases hp : popMax q with
    | none => exact absurd ((popMax_eq_none_iff q).mp hp) hq
    | some p =>
      cases p with
      | mk r rest =>
        have hlen : ((drainBatch (n + 1) q).1 ++ (drainBatch (n + 1) q).2).length = q.length :=
          (drainBatch_perm (n + 1) q).length_eq
        rw [List.length_append] at hlen
        have hone : 0 < (drainBatch (n + 1) q).1.length := by
          simp only [drainBatch, hp]
          simp
        omega

theorem drainAllFuel_flatten_perm (fuel bsz : Nat) (q : List InferenceRequest)
    (hb : 0 < bsz) (hfuel : q.length ≤ fuel) :
    ((drainAllFuel fuel bsz q).flatten).Perm q := by
  induction fuel generalizing q with
  | zero =>
    have : q = [] := List.eq_nil_of_length_eq_zero (Nat.le_zero.mp hfuel)
    subst this
    simp [drainAllFuel]
  | succ fuel ih =>
    by_cases hq : q = []
    · subst hq; simp [drainAllFuel]
    · simp only [drainAllFuel, List.isEmpty_iff, hq, if_false, List.flatten_cons]
      have hrest : (drainBatch bsz q).2.length ≤ fuel := by
        have := drainBatch_rest_length_lt bsz q hb hq
        omega
      have hperm := ih (drainBatch bsz q).2 hrest
      exact (hperm.append_left (drainBatch bsz q).1).trans (drainBatch_perm bsz q)

/-- C2: in a run to completion (all N submissions pending, then drained
under shutdown with a positive batch size), the multiset of requests
across all processed batches is exactly the multiset submitted, the
number of recorded latency samples is exactly N, the final processed
count is exactly N, and every submitted request occurs across the batches
exactly as often as it was submitted (so a uniquely-submitted request is
recorded exactly once and appears in exactly one batch): no item queued
before shutdown is dropped. -/
theorem run_no_loss_no_duplication (bsz : Nat) (q : List InferenceRequest)
    (doneTime : List InferenceRequest → ℚ) (hb : 0 < bsz) :
    ((runToCompletion bsz q).flatten).Perm q ∧
      (runSamples doneTime (runToCompletion bsz q)).length = q.length ∧
      totalProcessed (runToCompletion bsz q) = q.length ∧
      (∀ r, ((runToCompletion bsz q).flatten).count r = q.count r) := by
  have hperm : ((runToCompletion bsz q).flatten).Perm q :=
    drainAllFuel_flatten_perm q.length bsz q hb (le_refl _)
  have hlenflat : ((runToCompletion bsz q).flatten).length = q.length := hperm.length_eq
  refine ⟨hperm, ?_, ?_, ?_⟩
  · simp only [runSamples, recordLatencies]
    rw [List.length_flatten]
    simp only [List.map_map]
    have : ((runToCompletion bsz q).map (List.length ∘ fun b =>
        b.map fun r => doneTime b - r.enqueue_time_ms)) =
        (runToCompletion bsz q).map List.length := by
      apply List.map_congr_left
      intro b _
      simp
    rw [this, ← List.length_flatten, hlenflat]
  · simp only [totalProcessed]
    rw [← List.length_flatten, hlenflat]
  · intro r
    exact hperm.count_eq r

/-- A fixed completion-time assignment (every batch completes at time 0),
used to instantiate run-level statements on concrete inputs. -/
def zeroDoneTime : List InferenceRequest → ℚ := fun _ => 0

/-- C2 witness: a concrete run with batch size 1 over two submitted
requests processes exactly 2 requests. -/
theorem run_no_loss_no_duplication_witness :
    (0 < 1) ∧
      totalProcessed (runToCompletion 1 [⟨0, 2, 10, 0⟩, ⟨1, 1, 20, 0⟩]) = 2 :=
  ⟨by decide,
    (run_no_loss_no_duplication 1 [⟨0, 2, 10, 0⟩, ⟨1, 1, 20, 0⟩]
      zeroDoneTime (by decide)).2.2.1⟩

/-- The percentile lambda inside `print_stats` (lines 91-96): on an empty
sample list return 0; otherwise `idx = static_cast<size_t>(p * N)`
(truncation, which for `p ≥ 0` is the floor), clamped by
`std::min(idx, N - 1)`, and the element of the (already sorted) list at
that index is returned. -/
def pct (sorted_lat : List ℚ) (p : ℚ) : ℚ :=
  if sorted_lat.length = 0 then 0
  else
    sorted_lat.getD
      (min (Int.toNat ⌊p * (sorted_lat.length : ℚ)⌋) (sorted_lat.length - 1)) 0

/-- The `print_stats` percentile path: the recorded latencies are sorted
ascending (`std::sort`) and `pct` is applied to the sorted copy. -/
def print_stats_percentile (latencies : List ℚ) (p : ℚ) : ℚ :=
  pct (latencies.insertionSort (fun a b => a ≤ b)) p

/-- The throughput expression of `print_stats` (lines 87-89): the
division by elapsed time happens only when `total_processed_ > 0`,
otherwise the reported throughput is 0. -/
def throughput (total_processed : Int) (elapsed_ms : ℚ) : ℚ :=
  if 0 < total_processed then (total_processed : ℚ) / (elapsed_ms / 1000) else 0

/-- C3: for a non-empty sample list and percentile `p ∈ [0,1)`, the
reported percentile is the element at index `⌊p * N⌋` clamped to
`[0, N-1]` of an ascending-sorted permutation of the samples — an
index-based selection, not an interpolation; in particular for samples
`[1..10]`, p50 yields `sample[5] = 6` and p95 yields `sample[9] = 10`. -/
theorem percentile_sort_index (latencies : List ℚ) (p : ℚ)
    (hne : latencies ≠ []) (hp0 : 0 ≤ p) (hp1 : p < 1) :
    (∃ (s : List ℚ) (h : min (Int.toNat ⌊p * (latencies.length : ℚ)⌋)
        (latencies.length - 1) < s.length),
      s.Perm latencies ∧ s.Sorted (fun a b => a ≤ b) ∧
        print_stats_percentile latencies p =
          s.get ⟨min (Int.toNat ⌊p * (latencies.length : ℚ)⌋)
            (latencies.length - 1), h⟩) ∧
    print_stats_percentile [1, 2, 3, 4, 5, 6, 7, 8, 9, 10] (50 / 100) = 6 ∧
    print_stats_percentile [1, 2, 3, 4, 5, 6, 7, 8, 9, 10] (95 / 100) = 10 := by
  refine ⟨?_,
    by norm_num [print_stats_percentile, pct, List.insertionSort, List.orderedInsert]
       decide,
    by norm_num [print_stats_percentile, pct, List.insertionSort, List.orderedInsert]
       decide⟩
  set s := latencies.insertionSort (fun a b => a ≤ b) with hs
  have hperm : s.Perm latencies := List.perm_insertionSort _ latencies
  have hsorted : s.Sorted (fun a b => a ≤ b) := List.sorted_insertionSort _ latencies
  have hlen : s.length = latencies.length := hperm.length_eq
  have hpos : 0 < latencies.length := List.length_pos.mpr hne
  have hidx : min (Int.toNat ⌊p * (latencies.length : ℚ)⌋) (latencies.length - 1)
      < s.length := by
    rw [hlen]
    have : min (Int.toNat ⌊p * (latencies.length : ℚ)⌋) (latencies.length - 1)
        ≤ latencies.length - 1 := min_le_right _ _
    omega
  refine ⟨s, hidx, hperm, hsorted, ?_⟩
  simp only [print_stats_percentile, ← hs, pct, hlen]
  rw [if_neg (by omega)]
  rw [List.getD_eq_getElem s 0 hidx]
  simp [List.get_eq_getElem]

/-- C3 witness: the p50 of the ten samples `[1..10]` is 6. -/
theorem percentile_sort_index_witness :
    print_stats_percentile [1, 2, 3, 4, 5, 6, 7, 8, 9, 10] (50 / 100) = 6 :=
  (percentile_sort_index [1, 2, 3, 4, 5, 6, 7, 8, 9, 10] (50 / 100)
    (by decide) (by norm_num) (by norm_num)).2.1

/-- C10: with zero recorded latency samples every percentile (p50, p95,
p99 — indeed any `p`) is reported as 0 rather than reading an empty list,
and with a processed count of 0 the reported throughput is 0 for every
elapsed time (the division is skipped). -/
theorem empty_stats_report_zero :
    (∀ p : ℚ, pct [] p = 0) ∧
      print_stats_percentile [] (50 / 100) = 0 ∧
      print_stats_percentile [] (95 / 100) = 0 ∧
      print_stats_percentile [] (99 / 100) = 0 ∧
      (∀ elapsed_ms : ℚ, throughput 0 elapsed_ms = 0) := by
  refine ⟨fun p => rfl, rfl, rfl, rfl, fun e => ?_⟩
  simp [throughput]

/-- The error the specification's taxonomy names for a non-positive
worker count or batch size at construction. -/
inductive SchedulerError where
  | invalidConfiguration
deriving DecidableEq, Repr

/-- The configuration stored by the scheduler object. -/
structure SchedulerConfig where
  num_workers : Int
  batch_size : Int
deriving DecidableEq, Repr

/-- The `InferenceScheduler` constructor (lines 52-56): it stores
`num_workers` and `batch_size` unconditionally — there is no validation
of either parameter and construction cannot fail.  Wrapped in `Except`
so that the claimed rejection behaviour can be stated. -/
def mkInferenceScheduler (num_workers batch_size : Int) :
    Except SchedulerError SchedulerConfig :=
  Except.ok ⟨num_workers, batch_size⟩

/-- C5 counterexample: constructing with non-positive worker count and
batch size succeeds; it is not rejected with `invalidConfiguration` as
the claim states. -/
theorem construction_accepts_nonpositive :
    mkInferenceScheduler 0 8 = Except.ok ⟨0, 8⟩ ∧
      mkInferenceScheduler (-1) (-3) ≠
        Except.error SchedulerError.invalidConfiguration := by
  exact ⟨rfl, by simp [mkInferenceScheduler]⟩

/-- C5 amended: construction never fails — the constructor performs no
validation and stores whatever worker count and batch size it is given,
positive or not. -/
theorem construction_never_fails (num_workers batch_size : Int) :
    ∃ cfg : SchedulerConfig,
      mkInferenceScheduler num_workers batch_size = Except.ok cfg ∧
        cfg.num_workers = num_workers ∧ cfg.batch_size = batch_size :=
  ⟨⟨num_workers, batch_size⟩, rfl, rfl, rfl⟩

/-- The method `InferenceScheduler::enqueue` (lines 65-72): the caller passes a
whole `InferenceRequest` (including its id); the method overwrites only
`enqueue_time_ms` with the current monotonic time and pushes the request
onto the priority queue.  The queue multiset is the last argument; the
current time is passed explicitly. -/
def enqueue (req : InferenceRequest) (now_ms : ℚ)
    (queue : List InferenceRequest) : List InferenceRequest :=
  ⟨req.id, req.priority, req.token_count, now_ms⟩ :: queue

/-- C6 counterexample: `enqueue` does not assign a fresh identifier — it
stores the caller-supplied id unchanged, so submitting two requests that
carry the same id yields a queue with a duplicated identifier,
contradicting "assigns a fresh identifier (unique per submission)". -/
theorem enqueue_does_not_assign_fresh_id :
    ((enqueue ⟨7, 3, 50, 0⟩ 2 (enqueue ⟨7, 3, 50, 0⟩ 1 [])).map
      InferenceRequest.id) = [7, 7] ∧
    ¬ ((enqueue ⟨7, 3, 50, 0⟩ 2 (enqueue ⟨7, 3, 50, 0⟩ 1 [])).map
      InferenceRequest.id).Nodup := by
  decide

/-- C6 amended: `enqueue` stamps the current monotonic time as the
enqueue timestamp — the only field modified — stores id, priority and
size unchanged (identifier freshness is the caller's responsibility),
inserts the request at the head of the pending multiset, and leaves the
rest of the queue untouched. -/
theorem enqueue_stamps_time_only (req : InferenceRequest) (now_ms : ℚ)
    (queue : List InferenceRequest) :
    ∃ stored : InferenceRequest,
      enqueue req now_ms queue = stored :: queue ∧
        stored.id = req.id ∧ stored.priority = req.priority ∧
        stored.token_count = req.token_count ∧
        stored.enqueue_time_ms = now_ms :=
  ⟨⟨req.id, req.priority, req.token_count, now_ms⟩, rfl, rfl, rfl, rfl, rfl⟩

/-- The token-sum loop of `worker_loop` (lines 138-139):
`int total_tokens = 0; for (auto& r : batch) total_tokens += r.token_count;`
— the raw signed sum, with no clamping of non-positive sizes. -/
def batchTotalTokens (batch : List InferenceRequest) : Int :=
  batch.foldl (fun acc r => acc + r.token_count) 0

/-- The simulated processing cost (line 140):
`double sim_ms = total_tokens * 0.02;` — 0.02 ms per token. -/
def simMs (batch : List InferenceRequest) : ℚ :=
  (batchTotalTokens batch : ℚ) * (2 / 100)

/-- The cost computation as the specification words it, for comparison
with `simMs`: every zero-or-negative size is treated as size 0,
contributing no cost. -/
def simMsClamped (batch : List InferenceRequest) : ℚ :=
  ((batch.foldl (fun acc r => acc + max r.token_count 0) 0 : Int) : ℚ) * (2 / 100)

/-- The cost computation as executed by worker `worker_id`: the
`worker_loop(int worker_id)` body computes `sim_ms` without reading
`worker_id`, so the function ignores its first argument. -/
def workerSimMs (worker_id : Int) (batch : List InferenceRequest) : ℚ :=
  simMs batch

theorem foldl_add_eq_sum (f : InferenceRequest → Int) :
    ∀ (l : List InferenceRequest) (a : Int),
      l.foldl (fun acc r => acc + f r) a = a + (l.map f).sum := by
  intro l
  induction l with
  | nil => intro a; simp
  | cons x xs ih =>
    intro a
    simp only [List.foldl_cons, List.map_cons, List.sum_cons, ih]
    ring

theorem batchTotalTokens_eq_sum (batch : List InferenceRequest) :
    batchTotalTokens batch = (batch.map InferenceRequest.token_count).sum := by
  simpa [batchTotalTokens] using foldl_add_eq_sum InferenceRequest.token_count batch 0

/-- C7 counterexample: a zero-or-negative size is NOT treated as size 0.
A batch holding sizes 100 and -50 costs 1 ms, while the same batch with
the non-positive size replaced by 0 costs 2 ms — the negative size
subtracts from the total rather than contributing nothing — and a batch
holding only size -50 has a negative cost, so cost is not never-negative. -/
theorem negative_size_not_clamped :
    simMs [⟨0, 1, 100, 0⟩, ⟨1, 1, -50, 0⟩] = 1 ∧
      simMsClamped [⟨0, 1, 100, 0⟩, ⟨1, 1, -50, 0⟩] = 2 ∧
      simMs [⟨0, 1, 100, 0⟩, ⟨1, 1, -50, 0⟩] ≠
        simMsClamped [⟨0, 1, 100, 0⟩, ⟨1, 1, -50, 0⟩] ∧
      simMs [⟨2, 1, -50, 0⟩] < 0 := by
  refine ⟨?_, ?_, ?_, ?_⟩ <;> norm_num [simMs, simMsClamped, batchTotalTokens]

/-- C7 amended: each request contributes its raw signed size to the
batch's token sum — non-positive sizes are not clamped, so a negative
size reduces the simulated cost and can make it negative.  Only when
every size in the batch is non-negative does the cost agree with the
clamped-at-zero cost of the specification, and only then is it guaranteed
non-negative. -/
theorem cost_clamps_only_for_nonneg_sizes (batch : List InferenceRequest)
    (h : ∀ r ∈ batch, 0 ≤ r.token_count) :
    simMs batch = simMsClamped batch ∧ 0 ≤ simMs batch := by
  have hmap : batch.map (fun r => max r.token_count 0) =
      batch.map InferenceRequest.token_count := by
    apply List.map_congr_left
    intro r hr
    exact max_eq_left (h r hr)
  have hfold : (batch.foldl (fun acc r => acc + max r.token_count 0) 0 : Int) =
      batchTotalTokens batch := by
    rw [foldl_add_eq_sum (fun r => max r.token_count 0) batch 0,
      batchTotalTokens_eq_sum, hmap]
    simp
  constructor
  · simp only [simMs, simMsClamped, hfold]
  · have hsum : 0 ≤ batchTotalTokens batch := by
      rw [batchTotalTokens_eq_sum]
      apply List.sum_nonneg
      intro x hx
      rcases List.mem_map.mp hx with ⟨r, hr, rfl⟩
      exact h r hr
    have : (0 : ℚ) ≤ (batchTotalTokens batch : ℚ) := by exact_mod_cast hsum
    simp only [simMs]
    positivity

/-- C7 amended witness: on a batch whose single size 100 is non-negative,
the raw cost and the clamped cost agree. -/
theorem cost_clamps_only_for_nonneg_sizes_witness :
    simMs [⟨0, 1, 100, 0⟩] = simMsClamped [⟨0, 1, 100, 0⟩] :=
  (cost_clamps_only_for_nonneg_sizes [⟨0, 1, 100, 0⟩] (by decide)).1

/-- C8: the simulated cost is a deterministic linear function of the
batch's token sum with the single fixed coefficient 0.02 ms per token
(= 2/100), identical for every worker: two batches with equal token sums
incur equal cost regardless of which worker processes them and of how the
sizes are distributed among the items, a single request of size t costs
t * 0.02 ms, and the cost of concatenated batches is the sum of their
costs. -/
theorem cost_linear_in_token_sum (w1 w2 : Int) (b1 b2 : List InferenceRequest)
    (h : batchTotalTokens b1 = batchTotalTokens b2) :
    workerSimMs w1 b1 = workerSimMs w2 b2 ∧
      (∀ r : InferenceRequest, simMs [r] = (r.token_count : ℚ) * (2 / 100)) ∧
      (∀ b3 b4 : List InferenceRequest, simMs (b3 ++ b4) = simMs b3 + simMs b4) := by
  refine ⟨?_, ?_, ?_⟩
  · simp only [workerSimMs, simMs, h]
  · intro r
    simp [simMs, batchTotalTokens]
  · intro b3 b4
    simp only [simMs, batchTotalTokens_eq_sum, List.map_append, List.sum_append]
    push_cast
    ring

/-- C8 witness: batches [100] and [40, 60], with equal token sums but
different distributions, cost the same on two different workers. -/
theorem cost_linear_in_token_sum_witness :
    workerSimMs 0 [⟨0, 1, 100, 0⟩] = workerSimMs 1 [⟨5, 9, 40, 0⟩, ⟨6, 2, 60, 0⟩] :=
  (cost_linear_in_token_sum 0 1 [⟨0, 1, 100, 0⟩] [⟨5, 9, 40, 0⟩, ⟨6, 2, 60, 0⟩]
    (by decide)).1

/-- The synchronization-relevant actions a worker performs, in the order
`worker_loop` executes them. -/
inductive WorkerEv where
  | lockQueue
  | waitCv
  | drainFromQueue
  | unlockQueue
  | sleepSim
  | lockLat
  | appendLatencies
  | unlockLat
  | addProcessed
deriving DecidableEq, Repr

/-- One iteration of `worker_loop` as its program-order sequence of
synchronization-relevant events: the `std::unique_lock` scope (lines
126-134) covers the condition-variable wait and the batch pull and is
closed by the scope's end before the simulated-processing
`sleep_for` (line 143) runs; the separate `lat_mu_` scope (lines
147-151) covers only the latency append. -/
def workerCycle : List WorkerEv :=
  [WorkerEv.lockQueue, WorkerEv.waitCv, WorkerEv.drainFromQueue,
   WorkerEv.unlockQueue, WorkerEv.sleepSim, WorkerEv.lockLat,
   WorkerEv.appendLatencies, WorkerEv.unlockLat, WorkerEv.addProcessed]

/-- The event sequence of a worker that runs `n` iterations of the
loop. -/
def workerEvents : Nat → List WorkerEv
  | 0 => []
  | n + 1 => workerCycle ++ workerEvents n

/-- Whether the queue mutex `mu_` is held after executing a prefix of a
worker's events. -/
def queueLockHeld (evs : List WorkerEv) : Bool :=
  evs.foldl
    (fun held e =>
      match e with
      | WorkerEv.lockQueue => true
      | WorkerEv.unlockQueue => false
      | _ => held)
    false

theorem queueLockHeld_cycle_append (b : Bool) (l : List WorkerEv) :
    List.foldl
      (fun held e =>
        match e with
        | WorkerEv.lockQueue => true
        | WorkerEv.unlockQueue => false
        | _ => held)
      b (workerCycle ++ l) =
    queueLockHeld l := by
  rw [List.foldl_append]
  cases b <;> rfl

/-- C9: a worker never holds the queue mutex while suspended for the
simulated processing duration — at every position of the event sequence
of any number of loop iterations where the simulated sleep occurs, the
queue lock is not held (it was released at the end of the
`unique_lock` scope beforehand), so one worker's simulated processing
never blocks submissions or other workers' draining on `mu_`. -/
theorem sleep_never_holds_queue_lock (n i : Nat)
    (h : (workerEvents n).getD i WorkerEv.unlockQueue = WorkerEv.sleepSim) :
    queueLockHeld ((workerEvents n).take i) = false := by
  induction n generalizing i with
  | zero => simp [workerEvents, List.getD] at h
  | succ n ih =>
    simp only [workerEvents] at h ⊢
    by_cases hi : i < workerCycle.length
    · rw [List.getD_append workerCycle (workerEvents n) WorkerEv.unlockQueue i hi] at h
      have hi9 : i < 9 := by simpa [workerCycle] using hi
      interval_cases i <;> simp_all [workerCycle, List.getD] <;>
        simp [queueLockHeld, List.take, List.foldl]
    · push_neg at hi
      have hlen : workerCycle.length ≤ i := by simpa [workerCycle] using hi
      rw [List.getD_append_right workerCycle (workerEvents n)
        WorkerEv.unlockQueue i hlen] at h
      have htake : (workerCycle ++ workerEvents n).take i =
          workerCycle ++ (workerEvents n).take (i - workerCycle.length) := by
        rw [List.take_append_eq_append_take]
        congr 1
        exact List.take_of_length_le (by omega)
      rw [htake]
      rw [show queueLockHeld (workerCycle ++ (workerEvents n).take
        (i - workerCycle.length)) = _ from
        queueLockHeld_cycle_append false ((workerEvents n).take
          (i - workerCycle.length))]
      exact ih (i - workerCycle.length) h

/-- C9 witness: in a single iteration the sleep occurs at position 4 and
the queue lock is not held there. -/
theorem sleep_never_holds_queue_lock_witness :
    ((workerEvents 1).getD 4 WorkerEv.unlockQueue = WorkerEv.sleepSim) ∧
      queueLockHeld ((workerEvents 1).take 4) = false :=
  ⟨by decide, sleep_never_holds_queue_lock 1 4 (by decide)⟩

end InferenceSchedulerModel
